import Mathlib

/-!
Verification development for the binomial de-Americanization repository.

The numerical core is shallowly embedded: the Python functions
`_deam_one_tree`, `_deamericanize_price_binomial`
(src/binomial/binomial_deamericanization.py), `_row_bs_iv_from_price`
(src/binomial/bs_iv.py), `_calibrate_heston` (src/heston_calibrator.py) and
`interest_rate_interpolation` (src/interest/interest_rates.py) become Lean
functions over exact rationals.  External numerical primitives (QuantLib
tree/analytic pricers, the Brent solver, `np.exp`, the spline constructor,
the Levenberg-Marquardt optimizer) are abstracted as oracle parameters, as
the code treats them as black boxes.  Values that Python's floats can take
besides ordinary numbers (nan, infinities, as produced by a pricing call)
are represented by an explicit `PyFloat` type; quote fields are modelled as
exact rationals, and the optional mid price as `Option`.
-/

/-- A Python float as observed by the guards in this code base: either a
finite value (idealised as an exact rational) or one of the non-finite
values that `np.isfinite` rejects. -/
inductive PyFloat where
  | fin (x : ℚ)
  | nan
  | inf
  | ninf
deriving DecidableEq, Repr

/-- `np.isfinite`. -/
def PyFloat.isfinite : PyFloat → Bool
  | PyFloat.fin _ => true
  | _ => false

/-- IEEE-style strict `<` on `PyFloat`: any comparison with nan is false. -/
def PyFloat.pylt : PyFloat → PyFloat → Bool
  | PyFloat.nan, _ => false
  | _, PyFloat.nan => false
  | PyFloat.ninf, PyFloat.ninf => false
  | PyFloat.ninf, _ => true
  | _, PyFloat.ninf => false
  | PyFloat.inf, _ => false
  | PyFloat.fin _, PyFloat.inf => true
  | PyFloat.fin x, PyFloat.fin y => decide (x < y)

/-- One option observation (a row of the quote table), with the fields read
by `_deam_one_tree` and `_row_bs_iv_from_price`.  `mid` is `none` when
`_get_mid` finds no usable mid price in the row. -/
structure Quote where
  spot_price : ℚ
  strike : ℚ
  TTM : ℚ
  r : ℚ
  dividendYield : ℚ
  mid : Option ℚ
  optionType : String
deriving DecidableEq, Repr

/-- Lower-casing of an ASCII tag, modelling Python's `str.lower()` as used
on `optionType` and on the tree-family name. -/
def pyLower (s : String) : String := ⟨s.data.map Char.toLower⟩

/-- The external numerical primitives consumed by the core, per quote:
`exp` is `np.exp`; `engineInit` tells whether `ql.BinomialVanillaEngine`
construction succeeds for a (family, steps) pair; `amNPV` is the American
tree NPV at a volatility (`none` = the pricing call raised); `brent` is
`ql.Brent().solve (f, accuracy, guess, lo, hi)` (`none` = the solver
raised); `euNPV` is the analytic European NPV at a volatility; `solveIV` is
`VanillaOption.impliedVolatility` at a target price; `euAtVol` is the
analytic European price used by the bisection fallback; `calibrate` is
`HestonModel.calibrate` returning the fitted parameters. -/
structure Oracle where
  exp : ℚ → ℚ
  engineInit : String → ℕ → Bool
  amNPV : String → ℕ → ℚ → Option PyFloat
  brent : (ℚ → Option ℚ) → ℚ → ℚ → ℚ → ℚ → Option ℚ
  euNPV : ℚ → Option PyFloat
  solveIV : ℚ → Option PyFloat
  euAtVol : ℚ → Option PyFloat

/-- Failure sites of `_deam_one_tree` (the Python function reports them as
error strings paired with a `None` price). -/
inductive DeamErr where
  | badInputs
  | noArb
  | engineInit
  | noBracket
  | brentFailed
  | euFailed
deriving DecidableEq, Repr

/-- Result of one `_deam_one_tree` attempt, instrumented with the facts the
specification talks about: the (price, error) pair the Python function
returns, whether any pricing computation (tree NPV, root solve, analytic
NPV) was requested from the oracle, the tree-step count handed to the
binomial engine, and the `(accuracy, guess, lo, hi)` arguments of the
Brent call when one was made. -/
structure DeamTrace where
  price : Option PyFloat
  err : Option DeamErr
  oracleInvoked : Bool
  stepsUsed : Option ℕ
  brentArgs : Option (ℚ × ℚ × ℚ × ℚ)
deriving DecidableEq, Repr

/-- Dividend yield after the defensive percent correction
(`if q > 1.0: q = q / 100.0`). -/
def qEff (q : ℚ) : ℚ := if q > 1 then q / 100 else q

/-- `opt_is_call`: the `optionType` field, lower-cased, equals `'call'`. -/
def isCallQ (row : Quote) : Bool := pyLower row.optionType == ("call")

/-- Risk-free discount factor `df_r = np.exp(-r*T)`. -/
def dfR (O : Oracle) (row : Quote) : ℚ := O.exp (-(row.r * row.TTM))

/-- Dividend discount factor `df_q = np.exp(-q*T)` (with `q` already
percent-corrected). -/
def dfQ (O : Oracle) (row : Quote) : ℚ := O.exp (-(qEff row.dividendYield * row.TTM))

/-- Lower no-arbitrage bound `lb` of `_deam_one_tree`. -/
def noArbLB (O : Oracle) (row : Quote) : ℚ :=
  if isCallQ row then max 0 (row.spot_price * dfQ O row - row.strike * dfR O row)
  else max 0 (row.strike * dfR O row - row.spot_price * dfQ O row)

/-- Upper no-arbitrage bound `ub` of `_deam_one_tree`. -/
def noArbUB (O : Oracle) (row : Quote) : ℚ :=
  if isCallQ row then row.spot_price * dfQ O row
  else row.strike * dfR O row

/-- Tree-step adjustment: `if t == "lr" and use_steps % 2 == 0:
use_steps += 1` (the Leisen-Reimer tree needs an odd step count).
`t` is the already lower-cased family name. -/
def useSteps (t : String) (steps : ℕ) : ℕ :=
  if t == ("lr") && steps % 2 == 0 then steps + 1 else steps

/-- The root-search objective `f(σ) = AmericanNPV(max(σ, σ_floor)) - P`,
undefined (`none`) when the pricing call raises or returns a non-finite
value — mirroring `_Res.__call__`, which maps both cases to `np.nan`. -/
def deamObjective (O : Oracle) (t : String) (us : ℕ) (sigma_floor P : ℚ) (σ : ℚ) : Option ℚ :=
  match O.amNPV t us (max σ sigma_floor) with
  | some (PyFloat.fin v) => some (v - P)
  | _ => none

/-- The bracket-rejection test of the expansion loop:
`not np.isfinite(f_lo) or not np.isfinite(f_hi) or f_lo * f_hi > 0`
(`none` stands for the non-finite case). -/
def bracketBad : Option ℚ → Option ℚ → Bool
  | some a, some b => decide (a * b > 0)
  | _, _ => true

/-- The bracket-expansion loop of `_deam_one_tree`, fuelled by the number
of expansions still allowed: while the bracket is bad and fuel remains,
`lo *= 0.6; hi *= 1.7; lo = max(lo, sigma_floor)` and both endpoints are
re-evaluated. -/
def bracketLoop (f : ℚ → Option ℚ) (sigma_floor : ℚ) :
    ℕ → ℚ → ℚ → Option ℚ → Option ℚ → ℚ × ℚ × Option ℚ × Option ℚ
  | 0, lo, hi, f_lo, f_hi => (lo, hi, f_lo, f_hi)
  | n + 1, lo, hi, f_lo, f_hi =>
    if bracketBad f_lo f_hi then
      let lo2 := max (lo * (3 / 5)) sigma_floor
      let hi2 := hi * (17 / 10)
      bracketLoop f sigma_floor n lo2 hi2 (f lo2) (f hi2)
    else (lo, hi, f_lo, f_hi)

/-- The whole bracket search: start from
`(lo, hi) = (max(sigma_floor, 1e-3), 6.0)` and expand at most 12 times. -/
def bracketSearch (f : ℚ → Option ℚ) (sigma_floor : ℚ) : ℚ × ℚ × Option ℚ × Option ℚ :=
  let lo := max sigma_floor (1 / 1000)
  let hi : ℚ := 6
  bracketLoop f sigma_floor 12 lo hi (f lo) (f hi)

/-- Shallow embedding of `_deam_one_tree`: one de-Americanization attempt
with a single tree family.  Stages, in source order: input guards, percent
correction of `q`, no-arbitrage bounds, the zero-dividend call shortcut,
engine construction, bracket search, Brent root solve, analytic European
repricing at the root. -/
def _deam_one_tree (O : Oracle) (row : Quote) (steps : ℕ) (tree : String)
    (sigma_floor : ℚ) : DeamTrace :=
  match row.mid with
  | none => ⟨none, some DeamErr.badInputs, false, none, none⟩
  | some P =>
    if row.TTM ≤ 0 ∨ P ≤ 0 ∨ row.spot_price ≤ 0 ∨ row.strike ≤ 0 then
      ⟨none, some DeamErr.badInputs, false, none, none⟩
    else if ¬ (noArbLB O row - 1 / 100000000 ≤ P ∧ P ≤ noArbUB O row + 1 / 100000000) then
      ⟨none, some DeamErr.noArb, false, none, none⟩
    else if isCallQ row ∧ |qEff row.dividendYield| ≤ 1 / 10000 then
      ⟨some (PyFloat.fin P), none, false, none, none⟩
    else
      let t := pyLower tree
      let us := useSteps t steps
      if ¬ O.engineInit t us then
        ⟨none, some DeamErr.engineInit, false, some us, none⟩
      else
        let f := deamObjective O t us sigma_floor P
        match bracketSearch f sigma_floor with
        | (lo, hi, f_lo, f_hi) =>
          if bracketBad f_lo f_hi then
            ⟨none, some DeamErr.noBracket, true, some us, none⟩
          else
            let guess := max (3 / 10) (lo * (3 / 2))
            match O.brent f (1 / 100000000) guess lo hi with
            | none =>
              ⟨none, some DeamErr.brentFailed, true, some us,
                some (1 / 100000000, guess, lo, hi)⟩
            | some sigma_star =>
              match O.euNPV (max sigma_star sigma_floor) with
              | none =>
                ⟨none, some DeamErr.euFailed, true, some us,
                  some (1 / 100000000, guess, lo, hi)⟩
              | some p_eu =>
                ⟨some p_eu, none, true, some us,
                  some (1 / 100000000, guess, lo, hi)⟩

/-- The fixed fallback catalog of American-pricing tree families. -/
def treeCatalog : List String := [("jr"), ("trigeorgis"), ("tian"), ("crr"), ("lr")]

/-- The attempt order of `_deamericanize_price_binomial`: the requested
(lower-cased) family first, then every catalog member not already listed. -/
def treeTry (tree : String) : List String :=
  treeCatalog.foldl (fun acc t => if t ∈ acc then acc else acc ++ [t]) [pyLower tree]

/-- One fallback-loop iteration: run `_deam_one_tree` with
`sigma_floor = 1e-3` and accept its price iff it is a finite, strictly
positive number (`p is not None and np.isfinite(p) and p > 0`). -/
def deamAttempt (O : Oracle) (row : Quote) (steps : ℕ) (t : String) : Option ℚ :=
  match (_deam_one_tree O row steps t (1 / 1000)).price with
  | some (PyFloat.fin p) => if 0 < p then some p else none
  | _ => none

/-- Shallow embedding of `_deamericanize_price_binomial`: try the families
in `treeTry` order and return the first accepted price, `none` when every
attempt fails. -/
def _deamericanize_price_binomial (O : Oracle) (row : Quote) (steps : ℕ)
    (tree : String) : Option ℚ :=
  (treeTry tree).findSome? (deamAttempt O row steps)

/-- Failure sites of `_row_bs_iv_from_price` (the Python function returns
`None` in every failure case; the tag records which stage failed). -/
inductive IVErr where
  | invalidInput
  | deamFailed
  | solveFailed
deriving DecidableEq, Repr

/-- Result of `_row_bs_iv_from_price`, instrumented with whether any
implied-volatility solve (the built-in solver or the bisection fallback)
was attempted. -/
structure IVTrace where
  iv : Option ℚ
  err : Option IVErr
  solveAttempted : Bool
deriving DecidableEq, Repr

/-- The bisection fallback of `_row_bs_iv_from_price`, fuelled by the
remaining iteration count (120 at the top call): reprice at the midpoint,
stop within `1e-8` of the target, otherwise move the bracket edge by the
sign of the error.  A non-finite midpoint price, a raised pricing call, or
fuel exhaustion all yield `none`, as in the Python `return None` paths. -/
def bisectIV (euAtVol : ℚ → Option PyFloat) (target : ℚ) :
    ℕ → ℚ → ℚ → Option ℚ
  | 0, _, _ => none
  | n + 1, lo, hi =>
    let mid := (lo + hi) / 2
    match euAtVol mid with
    | some (PyFloat.fin p_mid) =>
      if |p_mid - target| < 1 / 100000000 then some mid
      else if p_mid < target then bisectIV euAtVol target n mid hi
      else bisectIV euAtVol target n lo mid
    | _ => none

/-- The fallback stage: bisection over `[1e-9, 12.0]` for up to 120
iterations. -/
def ivFallback (O : Oracle) (target : ℚ) : IVTrace :=
  match bisectIV O.euAtVol target 120 (1 / 1000000000) 12 with
  | some iv => ⟨some iv, none, true⟩
  | none => ⟨none, some IVErr.solveFailed, true⟩

/-- The solve stage of `_row_bs_iv_from_price`: QuantLib's built-in
implied-volatility routine first (accept a finite positive result), then
the bisection fallback. -/
def ivSolve (O : Oracle) (target : ℚ) : IVTrace :=
  match O.solveIV target with
  | some (PyFloat.fin iv) => if 0 < iv then ⟨some iv, none, true⟩ else ivFallback O target
  | _ => ivFallback O target

/-- Shallow embedding of `_row_bs_iv_from_price`: input guard
(`P_raw is None or T <= 0 or S <= 0 or K <= 0`), optional
de-Americanization (with its default `steps=400`, `tree="jr"`), then the
two-stage implied-volatility solve. -/
def _row_bs_iv_from_price (O : Oracle) (row : Quote) (use_deam : Bool) : IVTrace :=
  match row.mid with
  | none => ⟨none, some IVErr.invalidInput, false⟩
  | some P_raw =>
    if row.TTM ≤ 0 ∨ row.spot_price ≤ 0 ∨ row.strike ≤ 0 then
      ⟨none, some IVErr.invalidInput, false⟩
    else if use_deam then
      match _deamericanize_price_binomial O row 400 ("jr") with
      | none => ⟨none, some IVErr.deamFailed, false⟩
      | some P_eu =>
        if P_eu ≤ 0 then ⟨none, some IVErr.deamFailed, false⟩
        else ivSolve O P_eu
    else ivSolve O P_raw

/-- The five Heston parameters. -/
structure HestonParams where
  v0 : ℚ
  kappa : ℚ
  theta : ℚ
  sigma : ℚ
  rho : ℚ
deriving DecidableEq, Repr

/-- The default parameter seed
`dict(v0=0.04, kappa=1.5, theta=0.04, sigma=0.3, rho=-0.7)`. -/
def hestonDefaults : HestonParams :=
  ⟨1 / 25, 3 / 2, 1 / 25, 3 / 10, -(7 / 10)⟩

/-- A caller-supplied partial override of the seed (`init` in
`_calibrate_heston`; `p.update(init)` overrides field by field). -/
structure HestonInit where
  v0 : Option ℚ
  kappa : Option ℚ
  theta : Option ℚ
  sigma : Option ℚ
  rho : Option ℚ
deriving DecidableEq, Repr

/-- `p.update(init)`: each field of `init` that is present replaces the
default. -/
def mergeInit (p : HestonParams) (i : HestonInit) : HestonParams :=
  ⟨i.v0.getD p.v0, i.kappa.getD p.kappa, i.theta.getD p.theta,
    i.sigma.getD p.sigma, i.rho.getD p.rho⟩

/-- Python's `int(round(x))`: round half to even. -/
def pyRound (x : ℚ) : ℤ :=
  let f := ⌊x⌋
  let frac := x - f
  if frac < 1 / 2 then f
  else if frac > 1 / 2 then f + 1
  else if f % 2 = 0 then f else f + 1

/-- One calibration helper (`ql.HestonModelHelper`): tenor in days from the
evaluation date, the group spot, the row strike and its implied vol. -/
structure HestonHelper where
  tenorDays : ℤ
  S : ℚ
  K : ℚ
  iv : ℚ
deriving DecidableEq, Repr

/-- The tenor passed to a helper: `_to_maturity(eval_date, T) - eval_date`
days, i.e. `max(1, int(round(T * 365)))`. -/
def tenorOf (T : ℚ) : ℤ := max 1 (pyRound (T * 365))

/-- Failure sites of `_calibrate_heston`. -/
inductive CalErr where
  | emptyGroup
  | insufficientData
deriving DecidableEq, Repr

/-- Shallow embedding of `_calibrate_heston` for one calibration group.
`Os` supplies the per-row numerical primitives, `calibrate` abstracts
`HestonModel.calibrate` (Levenberg-Marquardt over the helpers from the
seed).  Per row: extract an implied vol with de-Americanization enabled,
skip the row if that fails, and build a helper; refuse the group when
fewer than 5 helpers remain. -/
def _calibrate_heston (Os : Quote → Oracle)
    (calibrate : List HestonHelper → HestonParams → HestonParams)
    (rows : List Quote) (init : Option HestonInit) :
    Except CalErr (HestonParams × List HestonHelper) :=
  match rows with
  | [] => Except.error CalErr.emptyGroup
  | r0 :: _ =>
    let S := r0.spot_price
    let helpers := rows.filterMap (fun row =>
      match (_row_bs_iv_from_price (Os row) row true).iv with
      | none => none
      | some iv => some (⟨tenorOf row.TTM, S, row.strike, iv⟩ : HestonHelper))
    if helpers.length < 5 then Except.error CalErr.insufficientData
    else
      let p := match init with
        | none => hestonDefaults
        | some i => mergeInit hestonDefaults i
      Except.ok (calibrate helpers p, helpers)

/-- The lexicographic order Python's `sorted` applies to the
`(maturity, value)` tuples of `interest_rate_interpolation`. -/
def lexLe (a b : ℚ × ℚ) : Prop := a.1 < b.1 ∨ (a.1 = b.1 ∧ a.2 ≤ b.2)

instance : DecidableRel lexLe := fun a b => by
  unfold lexLe
  infer_instance

instance : IsTotal (ℚ × ℚ) lexLe := by
  constructor
  intro a b
  unfold lexLe
  rcases lt_trichotomy a.1 b.1 with h | h | h
  · exact Or.inl (Or.inl h)
  · rcases le_total a.2 b.2 with h2 | h2
    · exact Or.inl (Or.inr ⟨h, h2⟩)
    · exact Or.inr (Or.inr ⟨h.symm, h2⟩)
  · exact Or.inr (Or.inl h)

instance : IsTrans (ℚ × ℚ) lexLe := by
  constructor
  intro a b c hab hbc
  unfold lexLe at *
  rcases hab with h1 | ⟨h1, h1v⟩
  · rcases hbc with h2 | ⟨h2, _⟩
    · exact Or.inl (h1.trans h2)
    · exact Or.inl (h2 ▸ h1)
  · rcases hbc with h2 | ⟨h2, h2v⟩
    · exact Or.inl (h1 ▸ h2)
    · exact Or.inr ⟨h1.trans h2, h1v.trans h2v⟩

/-- `xs, ys = zip(*sorted(zip(xs, ys)))`: the point list as sorted (and
passed on to the interpolant) by `interest_rate_interpolation`.  Python's
`sorted` compares whole `(maturity, value)` tuples; `lexLe` is total and
antisymmetric on them, so any sorting algorithm yields the same list. -/
def sortedPoints (pts : List (ℚ × ℚ)) : List (ℚ × ℚ) :=
  List.insertionSort lexLe pts

/-- The last two points of a (sorted) list, `xs[-2]` and `xs[-1]`; junk on
lists of fewer than two points, which the caller rules out. -/
def lastTwo : List (ℚ × ℚ) → (ℚ × ℚ) × (ℚ × ℚ)
  | [a, b] => (a, b)
  | _ :: b :: rest => lastTwo (b :: rest)
  | _ => ((0, 0), (0, 0))

/-- Shallow embedding of `interest_rate_interpolation` at one query
maturity `t`.  `mkSpline` abstracts `ql.MonotonicCubicNaturalSpline`.
Inside `[x_min, x_max]` the spline value is returned; outside, linear
extrapolation from the first two (below) or last two (above) sorted
points; an empty curve raises (`none`). -/
def interest_rate_interpolation (mkSpline : List ℚ → List ℚ → (ℚ → ℚ))
    (pts : List (ℚ × ℚ)) (t : ℚ) : Option ℚ :=
  match sortedPoints pts with
  | [] => none
  | [p] => some p.2
  | p1 :: p2 :: rest =>
    let s := p1 :: p2 :: rest
    let spline := mkSpline (s.map Prod.fst) (s.map Prod.snd)
    let x_min := p1.1
    let x_max := ((lastTwo s).2).1
    if x_min ≤ t ∧ t ≤ x_max then some (spline t)
    else if t < x_min then
      some (p1.2 + ((p2.2 - p1.2) / (p2.1 - p1.1)) * (t - p1.1))
    else
      some ((lastTwo s).1.2 +
        (((lastTwo s).2.2 - (lastTwo s).1.2) / ((lastTwo s).2.1 - (lastTwo s).1.1)) *
          (t - (lastTwo s).1.1))

/-- Modelled from the spec: the Yield Curve Builder step "Sort by maturity,
de-duplicating by taking the last value at a given maturity" — keep, per
maturity, the value supplied last, then sort.  Stated for comparison with
`sortedPoints`, the processing the source actually performs. -/
def specSortDedupLast (pts : List (ℚ × ℚ)) : List (ℚ × ℚ) :=
  List.insertionSort lexLe
    (pts.foldl (fun acc p => acc.filter (fun e => e.1 ≠ p.1) ++ [p]) [])

/-- Closed form of the lower bracket endpoint after `k` expansions. -/
def bLo (sigma_floor : ℚ) : ℕ → ℚ
  | 0 => max sigma_floor (1 / 1000)
  | k + 1 => max (bLo sigma_floor k * (3 / 5)) sigma_floor

/-- Closed form of the upper bracket endpoint after `k` expansions. -/
def bHi : ℕ → ℚ
  | 0 => 6
  | k + 1 => bHi k * (17 / 10)

/-- The expansion count at which the loop stops, starting from state `k`
with `n` expansions of fuel left: the first index with a good bracket, or
the index reached when the fuel runs out. -/
def stopIdx (f : ℚ → Option ℚ) (sigma_floor : ℚ) : ℕ → ℕ → ℕ
  | 0, k => k
  | n + 1, k =>
    if bracketBad (f (bLo sigma_floor k)) (f (bHi k)) then stopIdx f sigma_floor n (k + 1)
    else k

theorem bracketLoop_eq_state (f : ℚ → Option ℚ) (sf : ℚ) :
    ∀ n k, bracketLoop f sf n (bLo sf k) (bHi k) (f (bLo sf k)) (f (bHi k)) =
      (bLo sf (stopIdx f sf n k), bHi (stopIdx f sf n k),
        f (bLo sf (stopIdx f sf n k)), f (bHi (stopIdx f sf n k)))
  | 0, k => rfl
  | n + 1, k => by
    rw [bracketLoop, stopIdx]
    by_cases h : bracketBad (f (bLo sf k)) (f (bHi k))
    · rw [if_pos h, if_pos h]
      have e1 : max (bLo sf k * (3 / 5)) sf = bLo sf (k + 1) := rfl
      have e2 : bHi k * (17 / 10) = bHi (k + 1) := rfl
      rw [e1, e2]
      exact bracketLoop_eq_state f sf n (k + 1)
    · rw [if_neg h, if_neg h]

theorem bracketSearch_eq_state (f : ℚ → Option ℚ) (sf : ℚ) :
    bracketSearch f sf =
      (bLo sf (stopIdx f sf 12 0), bHi (stopIdx f sf 12 0),
        f (bLo sf (stopIdx f sf 12 0)), f (bHi (stopIdx f sf 12 0))) := by
  have h0 : max sf (1 / 1000) = bLo sf 0 := rfl
  have h6 : (6 : ℚ) = bHi 0 := rfl
  rw [bracketSearch]
  rw [h0, h6]
  exact bracketLoop_eq_state f sf 12 0

theorem stopIdx_le (f : ℚ → Option ℚ) (sf : ℚ) :
    ∀ n k, stopIdx f sf n k ≤ k + n
  | 0, k => Nat.le_refl k
  | n + 1, k => by
    rw [stopIdx]
    by_cases h : bracketBad (f (bLo sf k)) (f (bHi k))
    · rw [if_pos h]
      have := stopIdx_le f sf n (k + 1)
      omega
    · rw [if_neg h]
      omega

theorem stopIdx_ge (f : ℚ → Option ℚ) (sf : ℚ) :
    ∀ n k, k ≤ stopIdx f sf n k
  | 0, k => Nat.le_refl k
  | n + 1, k => by
    rw [stopIdx]
    by_cases h : bracketBad (f (bLo sf k)) (f (bHi k))
    · rw [if_pos h]
      have := stopIdx_ge f sf n (k + 1)
      omega
    · rw [if_neg h]

theorem stopIdx_bad_before (f : ℚ → Option ℚ) (sf : ℚ) :
    ∀ n k j, k ≤ j → j < stopIdx f sf n k →
      bracketBad (f (bLo sf j)) (f (bHi j)) = true
  | 0, k, j, hk, hj => absurd (Nat.lt_of_le_of_lt hk hj) (Nat.lt_irrefl _)
  | n + 1, k, j, hk, hj => by
    rw [stopIdx] at hj
    by_cases h : bracketBad (f (bLo sf k)) (f (bHi k))
    · rw [if_pos h] at hj
      rcases Nat.eq_or_lt_of_le hk with he | hlt
      · exact he ▸ h
      · exact stopIdx_bad_before f sf n (k + 1) j hlt hj
    · rw [if_neg h] at hj
      exact absurd (Nat.lt_of_le_of_lt hk hj) (Nat.lt_irrefl _)

theorem stopIdx_stopped (f : ℚ → Option ℚ) (sf : ℚ) :
    ∀ n k, bracketBad (f (bLo sf (stopIdx f sf n k))) (f (bHi (stopIdx f sf n k))) = true →
      stopIdx f sf n k = k + n
  | 0, k, _ => rfl
  | n + 1, k, hbad => by
    rw [stopIdx] at hbad ⊢
    by_cases h : bracketBad (f (bLo sf k)) (f (bHi k))
    · rw [if_pos h] at hbad ⊢
      have := stopIdx_stopped f sf n (k + 1) hbad
      omega
    · rw [if_neg h] at hbad
      exact absurd hbad (by simp [h])

theorem bLo_milli : ∀ k, bLo (1 / 1000) k = 1 / 1000
  | 0 => max_self _
  | k + 1 => by
    rw [bLo, bLo_milli k]
    have : (1 / 1000 : ℚ) * (3 / 5) ≤ 1 / 1000 := by norm_num
    exact max_eq_right this

theorem bHi_ge_six : ∀ k, (6 : ℚ) ≤ bHi k
  | 0 => le_refl 6
  | k + 1 => by
    rw [bHi]
    have h := bHi_ge_six k
    nlinarith

theorem deam_brentArgs_shape (O : Oracle) (row : Quote) (steps : ℕ) (tree : String) (sf : ℚ)
    (tol guess lo hi : ℚ)
    (h : (_deam_one_tree O row steps tree sf).brentArgs = some (tol, guess, lo, hi)) :
    tol = 1 / 100000000 ∧ ∃ s, s ≤ 12 ∧ lo = bLo sf s ∧ hi = bHi s ∧
      guess = max (3 / 10) (lo * (3 / 2)) := by
  unfold _deam_one_tree at h
  cases hrm : row.mid with
  | none => rw [hrm] at h; simp at h
  | some P =>
    rw [hrm] at h
    dsimp only at h
    split at h
    · simp at h
    · split at h
      · simp at h
      · split at h
        · simp at h
        · split at h
          · simp at h
          · rw [bracketSearch_eq_state] at h
            dsimp only at h
            split at h
            · simp at h
            · split at h
              · simp only [Option.some.injEq, Prod.mk.injEq] at h
                obtain ⟨ht, hg, hl, hh⟩ := h
                refine ⟨ht.symm, stopIdx _ sf 12 0, ?_, hl.symm, hh.symm, ?_⟩
                · have := stopIdx_le (deamObjective O (pyLower tree)
                    (useSteps (pyLower tree) steps) sf P) sf 12 0
                  omega
                · rw [← hg, ← hl]
              · split at h <;>
                · simp only [Option.some.injEq, Prod.mk.injEq] at h
                  obtain ⟨ht, hg, hl, hh⟩ := h
                  refine ⟨ht.symm, stopIdx _ sf 12 0, ?_, hl.symm, hh.symm, ?_⟩
                  · have := stopIdx_le (deamObjective O (pyLower tree)
                      (useSteps (pyLower tree) steps) sf P) sf 12 0
                    omega
                  · rw [← hg, ← hl]

theorem deam_trace_cases (O : Oracle) (row : Quote) (steps : ℕ) (tree : String) (sf : ℚ) :
    (_deam_one_tree O row steps tree sf = ⟨none, some DeamErr.badInputs, false, none, none⟩)
    ∨ (_deam_one_tree O row steps tree sf = ⟨none, some DeamErr.noArb, false, none, none⟩)
    ∨ (∃ P, row.mid = some P ∧
        _deam_one_tree O row steps tree sf = ⟨some (PyFloat.fin P), none, false, none, none⟩)
    ∨ (_deam_one_tree O row steps tree sf =
        ⟨none, some DeamErr.engineInit, false, some (useSteps (pyLower tree) steps), none⟩)
    ∨ (_deam_one_tree O row steps tree sf =
        ⟨none, some DeamErr.noBracket, true, some (useSteps (pyLower tree) steps), none⟩)
    ∨ (∃ pr er args, _deam_one_tree O row steps tree sf =
        ⟨pr, er, true, some (useSteps (pyLower tree) steps), some args⟩ ∧
        (er = some DeamErr.brentFailed ∨ er = some DeamErr.euFailed ∨ er = none)) := by
  unfold _deam_one_tree
  cases hrm : row.mid with
  | none => exact Or.inl rfl
  | some P =>
    dsimp only
    split
    · exact Or.inl rfl
    · split
      · exact Or.inr (Or.inl rfl)
      · split
        · exact Or.inr (Or.inr (Or.inl ⟨P, rfl, rfl⟩))
        · split
          · exact Or.inr (Or.inr (Or.inr (Or.inl rfl)))
          · rw [bracketSearch_eq_state]
            dsimp only
            split
            · exact Or.inr (Or.inr (Or.inr (Or.inr (Or.inl rfl))))
            · split
              · exact Or.inr (Or.inr (Or.inr (Or.inr (Or.inr
                  ⟨_, _, _, rfl, Or.inl rfl⟩))))
              · split
                · exact Or.inr (Or.inr (Or.inr (Or.inr (Or.inr
                    ⟨_, _, _, rfl, Or.inr (Or.inl rfl)⟩))))
                · exact Or.inr (Or.inr (Or.inr (Or.inr (Or.inr
                    ⟨_, _, _, rfl, Or.inr (Or.inr rfl)⟩))))

theorem deam_noBracket_shape (O : Oracle) (row : Quote) (steps : ℕ) (tree : String) (sf : ℚ)
    (h : (_deam_one_tree O row steps tree sf).err = some DeamErr.noBracket) :
    (_deam_one_tree O row steps tree sf).brentArgs = none ∧
      (_deam_one_tree O row steps tree sf).price = none := by
  rcases deam_trace_cases O row steps tree sf with
    hc | hc | ⟨P, _, hc⟩ | hc | hc | ⟨pr, er, args, hc, her⟩
  · rw [hc] at h; simp at h
  · rw [hc] at h; simp at h
  · rw [hc] at h; simp at h
  · rw [hc] at h; simp at h
  · rw [hc]; exact ⟨rfl, rfl⟩
  · rw [hc] at h
    rcases her with he | he | he <;> rw [he] at h <;> simp at h

theorem deam_stepsUsed_shape (O : Oracle) (row : Quote) (steps : ℕ) (tree : String) (sf : ℚ)
    (u : ℕ) (h : (_deam_one_tree O row steps tree sf).stepsUsed = some u) :
    u = useSteps (pyLower tree) steps := by
  rcases deam_trace_cases O row steps tree sf with
    hc | hc | ⟨P, _, hc⟩ | hc | hc | ⟨pr, er, args, hc, _⟩ <;>
    rw [hc] at h <;> simp at h
  · exact h.symm
  · exact h.symm
  · exact h.symm

/-- A concrete oracle whose American pricing call always raises: every
bracket evaluation is undefined, so no family ever brackets. -/
def oracleA : Oracle where
  exp := fun _ => 1
  engineInit := fun _ _ => true
  amNPV := fun _ _ _ => none
  brent := fun _ _ _ _ _ => none
  euNPV := fun _ => none
  solveIV := fun _ => none
  euAtVol := fun _ => none

/-- A concrete put quote with an in-bounds mid price. -/
def rowPut : Quote := ⟨100, 100, 1, 0, 1 / 2, some 10, ("put")⟩

theorem evalA_noBracket (tree : String) :
    _deam_one_tree oracleA rowPut 400 tree (1 / 1000) =
      ⟨none, some DeamErr.noBracket, true, some (useSteps (pyLower tree) 400), none⟩ := by
  have hic : isCallQ rowPut = false := by decide
  unfold _deam_one_tree
  show (if rowPut.TTM ≤ 0 ∨ (10:ℚ) ≤ 0 ∨ rowPut.spot_price ≤ 0 ∨ rowPut.strike ≤ 0 then _ else _) = _
  rw [if_neg (by norm_num [rowPut])]
  rw [if_neg (show ¬¬(noArbLB oracleA rowPut - 1 / 100000000 ≤ (10:ℚ) ∧
      (10:ℚ) ≤ noArbUB oracleA rowPut + 1 / 100000000) by
    norm_num [noArbLB, noArbUB, hic, dfR, dfQ, oracleA, rowPut])]
  rw [if_neg (show ¬(isCallQ rowPut = true ∧ |qEff rowPut.dividendYield| ≤ 1 / 10000) by
    simp [hic])]
  rw [if_neg (show ¬¬(oracleA.engineInit (pyLower tree) (useSteps (pyLower tree) 400) = true) by
    simp [oracleA])]
  have hf : deamObjective oracleA (pyLower tree) (useSteps (pyLower tree) 400) (1 / 1000) 10 =
      fun _ => none := rfl
  rw [hf]
  dsimp only
  rw [bracketSearch_eq_state]
  rfl

/-- C2: in every de-Americanization attempt the volatility bracket search
starts at `(lo, hi) = (max(sigma_floor, 1e-3), 6.0)`; while the bracket is
undefined or same-signed and fewer than 12 expansions have occurred, it
multiplies `lo` by 0.6 (then floors it at `sigma_floor`) and `hi` by 1.7
and re-evaluates both; if the final state still has no finite opposite-sign
bracket the family fails with `NoBracketFound` and the root solver is never
called. -/
theorem claim_C2_bracket_search (f : ℚ → Option ℚ) (sf : ℚ)
    (O : Oracle) (row : Quote) (steps : ℕ) (tree : String) :
    (bLo sf 0 = max sf (1 / 1000) ∧ bHi 0 = 6 ∧
      ∀ k, bLo sf (k + 1) = max (bLo sf k * (3 / 5)) sf ∧ bHi (k + 1) = bHi k * (17 / 10))
    ∧ bracketSearch f sf =
        (bLo sf (stopIdx f sf 12 0), bHi (stopIdx f sf 12 0),
          f (bLo sf (stopIdx f sf 12 0)), f (bHi (stopIdx f sf 12 0)))
    ∧ stopIdx f sf 12 0 ≤ 12
    ∧ (∀ j < stopIdx f sf 12 0, bracketBad (f (bLo sf j)) (f (bHi j)) = true)
    ∧ (bracketBad (f (bLo sf (stopIdx f sf 12 0))) (f (bHi (stopIdx f sf 12 0))) = true →
        stopIdx f sf 12 0 = 12)
    ∧ ((_deam_one_tree O row steps tree sf).err = some DeamErr.noBracket →
        (_deam_one_tree O row steps tree sf).brentArgs = none ∧
          (_deam_one_tree O row steps tree sf).price = none) := by
  refine ⟨⟨rfl, rfl, fun k => ⟨rfl, rfl⟩⟩, bracketSearch_eq_state f sf, ?_, ?_, ?_, ?_⟩
  · have := stopIdx_le f sf 12 0
    omega
  · intro j hj
    exact stopIdx_bad_before f sf 12 0 j (Nat.zero_le j) hj
  · intro hbad
    have := stopIdx_stopped f sf 12 0 hbad
    omega
  · exact deam_noBracket_shape O row steps tree sf

/-- Witness for C2 at a concrete quote and oracle: the American pricer
always raises, so every bracket evaluation is undefined, the loop exhausts
its 12 expansions, the family fails with `NoBracketFound`, and the solver
is never invoked. -/
theorem claim_C2_witness :
    (_deam_one_tree oracleA rowPut 400 ("jr") (1 / 1000)).err = some DeamErr.noBracket
    ∧ (_deam_one_tree oracleA rowPut 400 ("jr") (1 / 1000)).brentArgs = none
    ∧ (_deam_one_tree oracleA rowPut 400 ("jr") (1 / 1000)).price = none
    ∧ stopIdx (fun _ => none) (1 / 1000) 12 0 = 12 := by
  have herr : (_deam_one_tree oracleA rowPut 400 ("jr") (1 / 1000)).err =
      some DeamErr.noBracket := by rw [evalA_noBracket]
  have hmain := claim_C2_bracket_search (fun _ => none) (1 / 1000) oracleA rowPut 400 ("jr")
  refine ⟨herr, (hmain.2.2.2.2.2 herr).1, (hmain.2.2.2.2.2 herr).2, hmain.2.2.2.2.1 rfl⟩

/-- C3: whenever a de-Americanization attempt (which always runs with
`sigma_floor = 1e-3`) reaches the root-solve step, Brent is invoked with
absolute tolerance 1e-8 and an initial guess equal to
`min(max(0.30, lo*1.5), hi)`; in particular the guess never exceeds
`hi`. -/
theorem claim_C3_root_solve_args (O : Oracle) (row : Quote) (steps : ℕ) (tree : String)
    (tol guess lo hi : ℚ)
    (h : (_deam_one_tree O row steps tree (1 / 1000)).brentArgs = some (tol, guess, lo, hi)) :
    tol = 1 / 100000000 ∧ guess = min (max (3 / 10) (lo * (3 / 2))) hi ∧ guess ≤ hi := by
  obtain ⟨ht, s, _, hlo, hhi, hg⟩ :=
    deam_brentArgs_shape O row steps tree (1 / 1000) tol guess lo hi h
  have hlo1 : lo = 1 / 1000 := by rw [hlo, bLo_milli]
  have hmax : max (3 / 10 : ℚ) (lo * (3 / 2)) = 3 / 10 := by
    rw [hlo1]
    exact max_eq_left (by norm_num)
  have hhi6 : (6 : ℚ) ≤ hi := hhi ▸ bHi_ge_six s
  have hguess : guess = 3 / 10 := by rw [hg, hmax]
  refine ⟨ht, ?_, ?_⟩
  · rw [hguess, hmax, min_eq_left (by linarith)]
  · rw [hguess]; linarith

/-- A concrete oracle whose American NPV equals the volatility itself, so
the objective brackets after one expansion; Brent returns 2 and the
analytic European price is 5. -/
def oracleB : Oracle where
  exp := fun _ => 1
  engineInit := fun _ _ => true
  amNPV := fun _ _ σ => some (PyFloat.fin σ)
  brent := fun _ _ _ _ _ => some 2
  euNPV := fun _ => some (PyFloat.fin 5)
  solveIV := fun _ => none
  euAtVol := fun _ => none

theorem evalB_trace (tree : String) :
    _deam_one_tree oracleB rowPut 400 tree (1 / 1000) =
      ⟨some (PyFloat.fin 5), none, true, some (useSteps (pyLower tree) 400),
        some (1 / 100000000, 3 / 10, 1 / 1000, 51 / 5)⟩ := by
  have hic : isCallQ rowPut = false := by decide
  unfold _deam_one_tree
  show (if rowPut.TTM ≤ 0 ∨ (10 : ℚ) ≤ 0 ∨ rowPut.spot_price ≤ 0 ∨ rowPut.strike ≤ 0
      then _ else _) = _
  rw [if_neg (by norm_num [rowPut])]
  rw [if_neg (show ¬¬(noArbLB oracleB rowPut - 1 / 100000000 ≤ (10 : ℚ) ∧
      (10 : ℚ) ≤ noArbUB oracleB rowPut + 1 / 100000000) by
    norm_num [noArbLB, noArbUB, hic, dfR, dfQ, oracleB, rowPut])]
  rw [if_neg (show ¬(isCallQ rowPut = true ∧ |qEff rowPut.dividendYield| ≤ 1 / 10000) by
    simp [hic])]
  rw [if_neg (show ¬¬(oracleB.engineInit (pyLower tree) (useSteps (pyLower tree) 400) = true) by
    simp [oracleB])]
  have hf : deamObjective oracleB (pyLower tree) (useSteps (pyLower tree) 400) (1 / 1000) 10 =
      fun σ => some (max σ (1 / 1000) - 10) := rfl
  rw [hf]
  dsimp only
  rw [bracketSearch_eq_state]
  have c0 : bracketBad ((fun σ => some (max σ (1 / 1000) - 10)) (bLo (1 / 1000) 0))
      ((fun σ => some (max σ (1 / 1000) - 10)) (bHi 0)) = true := by
    norm_num [bracketBad, bLo, bHi, max_def]
  have hstop : stopIdx (fun σ => some (max σ (1 / 1000) - 10)) (1 / 1000) 12 0 = 1 := by
    rw [stopIdx, if_pos c0, stopIdx,
      if_neg (by norm_num [bracketBad, bLo, bHi, max_def])]
  rw [hstop]
  rw [if_neg (by norm_num [bracketBad, bLo, bHi, max_def])]
  dsimp only
  have hb1 : bLo (1 / 1000) 1 = 1 / 1000 := bLo_milli 1
  have hh1 : bHi 1 = 51 / 5 := by norm_num [bHi]
  rw [hb1, hh1]
  have hg : max (3 / 10 : ℚ) ((1 / 1000) * (3 / 2)) = 3 / 10 := max_eq_left (by norm_num)
  rw [hg]
  rfl

/-- Witness for C3: on a concrete attempt that reaches the root solve, the
recorded Brent arguments are tolerance 1e-8 and guess
0.30 = min(max(0.30, lo*1.5), hi) ≤ hi. -/
theorem claim_C3_witness :
    (_deam_one_tree oracleB rowPut 400 ("jr") (1 / 1000)).brentArgs =
        some (1 / 100000000, 3 / 10, 1 / 1000, 51 / 5)
    ∧ (1 / 100000000 : ℚ) = 1 / 100000000
    ∧ (3 / 10 : ℚ) = min (max (3 / 10) ((1 / 1000) * (3 / 2))) (51 / 5)
    ∧ (3 / 10 : ℚ) ≤ 51 / 5 := by
  have hargs : (_deam_one_tree oracleB rowPut 400 ("jr") (1 / 1000)).brentArgs =
      some (1 / 100000000, 3 / 10, 1 / 1000, 51 / 5) := by rw [evalB_trace]
  have h := claim_C3_root_solve_args oracleB rowPut 400 ("jr") _ _ _ _ hargs
  exact ⟨hargs, h.1, h.2.1, h.2.2⟩

/-- C10: whenever a de-Americanization attempt builds a binomial engine,
the step count actually used is `steps + 1` for the 'lr' family when
`steps` is even (hence always odd for 'lr'), and exactly `steps` for odd
step counts and for every other family. -/
theorem claim_C10_lr_steps (O : Oracle) (row : Quote) (steps : ℕ) (tree : String) (sf : ℚ)
    (u : ℕ) (h : (_deam_one_tree O row steps tree sf).stepsUsed = some u) :
    (pyLower tree = ("lr") →
      (u = if steps % 2 = 0 then steps + 1 else steps) ∧ u % 2 = 1)
    ∧ (pyLower tree ≠ ("lr") → u = steps) := by
  have hu := deam_stepsUsed_shape O row steps tree sf u h
  constructor
  · intro hlr
    rw [hu, useSteps, hlr]
    by_cases hp : steps % 2 = 0
    · simp [hp]
      omega
    · simp [hp]
      omega
  · intro hlr
    have hb : (pyLower tree == ("lr")) = false := by
      simp [hlr]
    rw [hu, useSteps, hb]
    simp

/-- Witness for C10: the 'LR' family with the even default of 400 steps
actually builds a 401-step engine, and 401 is odd. -/
theorem claim_C10_witness :
    (_deam_one_tree oracleA rowPut 400 ("LR") (1 / 1000)).stepsUsed = some 401
    ∧ (pyLower ("LR") = ("lr") →
        (401 = if 400 % 2 = 0 then 400 + 1 else 400) ∧ 401 % 2 = 1)
    ∧ (pyLower ("LR") ≠ ("lr") → 401 = 400) := by
  have hsteps : (_deam_one_tree oracleA rowPut 400 ("LR") (1 / 1000)).stepsUsed = some 401 := by
    rw [evalA_noBracket]
    decide
  exact ⟨hsteps, claim_C10_lr_steps oracleA rowPut 400 ("LR") (1 / 1000) 401 hsteps⟩

theorem treeTry_catalog (tree : String) (h : tree ∈ treeCatalog) :
    treeTry tree = tree :: treeCatalog.filter (fun t => t ≠ tree) := by
  fin_cases h <;> decide

/-- C1: for every quote and preferred family, the engine attempts families
in the order {preferred, then 'jr', 'trigeorgis', 'tian', 'crr', 'lr' with
duplicates skipped}, returns the first attempt whose price is accepted
(finite and strictly positive), and reports overall failure exactly when
every family in the catalog fails. -/
theorem claim_C1_fallback_order (O : Oracle) (row : Quote) (steps : ℕ) (tree : String)
    (htree : tree ∈ treeCatalog) :
    _deamericanize_price_binomial O row steps tree =
      (tree :: treeCatalog.filter (fun t => t ≠ tree)).findSome? (deamAttempt O row steps)
    ∧ (_deamericanize_price_binomial O row steps tree = none ↔
        ∀ t ∈ treeCatalog, deamAttempt O row steps t = none) := by
  have heq : treeTry tree = tree :: treeCatalog.filter (fun t => t ≠ tree) :=
    treeTry_catalog tree htree
  constructor
  · rw [_deamericanize_price_binomial, heq]
  · rw [_deamericanize_price_binomial, heq, List.findSome?_eq_none_iff]
    constructor
    · intro h t ht
      by_cases hte : t = tree
      · exact hte ▸ h tree (List.mem_cons_self _ _)
      · exact h t (List.mem_cons_of_mem _ (List.mem_filter.mpr ⟨ht, by simp [hte]⟩))
    · intro h x hx
      rcases List.mem_cons.mp hx with he | hf
      · exact he ▸ h tree htree
      · exact h x (List.mem_filter.mp hf).1

/-- Witness for C1 at a concrete oracle and quote, with preferred family
'jr'. -/
theorem claim_C1_witness :
    (("jr" : String) ∈ treeCatalog)
    ∧ (_deamericanize_price_binomial oracleB rowPut 400 ("jr") =
        (("jr" : String) :: treeCatalog.filter (fun t => t ≠ ("jr"))).findSome?
          (deamAttempt oracleB rowPut 400)
      ∧ (_deamericanize_price_binomial oracleB rowPut 400 ("jr") = none ↔
          ∀ t ∈ treeCatalog, deamAttempt oracleB rowPut 400 t = none)) :=
  ⟨by decide, claim_C1_fallback_order oracleB rowPut 400 ("jr") (by decide)⟩

theorem treeTry_foldl_extends (L : List String) :
    ∀ acc : List String, ∃ rest,
      L.foldl (fun acc t => if t ∈ acc then acc else acc ++ [t]) acc = acc ++ rest := by
  induction L with
  | nil => intro acc; exact ⟨[], by simp⟩
  | cons t L ih =>
    intro acc
    by_cases h : t ∈ acc
    · simpa [h] using ih acc
    · obtain ⟨r, hr⟩ := ih (acc ++ [t])
      refine ⟨[t] ++ r, ?_⟩
      simp only [List.foldl_cons, if_neg h, hr, List.append_assoc]

theorem treeTry_head (tree : String) : ∃ rest, treeTry tree = pyLower tree :: rest := by
  obtain ⟨r, hr⟩ := treeTry_foldl_extends treeCatalog [pyLower tree]
  exact ⟨r, by rw [treeTry, hr]; rfl⟩

theorem deam_shortcut_trace (O : Oracle) (row : Quote) (steps : ℕ) (P : ℚ)
    (hmid : row.mid = some P) (hP : 0 < P) (hS : 0 < row.spot_price) (hK : 0 < row.strike)
    (hT : 0 < row.TTM) (hcall : isCallQ row = true)
    (hq : |row.dividendYield| ≤ 1 / 10000)
    (hlb : noArbLB O row - 1 / 100000000 ≤ P) (hub : P ≤ noArbUB O row + 1 / 100000000) :
    ∀ t sf, _deam_one_tree O row steps t sf =
      ⟨some (PyFloat.fin P), none, false, none, none⟩ := by
  have hqe : qEff row.dividendYield = row.dividendYield := by
    rw [qEff, if_neg]
    have := (abs_le.mp hq).2
    intro hgt
    linarith
  intro t sf
  unfold _deam_one_tree
  rw [hmid]
  dsimp only
  rw [if_neg (by simp only [not_or, not_le]; exact ⟨hT, hP, hS, hK⟩)]
  rw [if_neg (not_not.mpr ⟨hlb, hub⟩)]
  rw [if_pos ⟨hcall, by rw [hqe]; exact hq⟩]

/-- C4: for every valid call quote passing the no-arbitrage bounds with
negligible dividend (`|q| ≤ 1e-4`), the engine returns exactly the input
mid price, and no attempt performs a volatility solve or any
pricing-oracle call. -/
theorem claim_C4_zero_div_call (O : Oracle) (row : Quote) (steps : ℕ) (tree : String) (P : ℚ)
    (hmid : row.mid = some P) (hP : 0 < P) (hS : 0 < row.spot_price) (hK : 0 < row.strike)
    (hT : 0 < row.TTM) (hcall : isCallQ row = true)
    (hq : |row.dividendYield| ≤ 1 / 10000)
    (hlb : noArbLB O row - 1 / 100000000 ≤ P) (hub : P ≤ noArbUB O row + 1 / 100000000) :
    _deamericanize_price_binomial O row steps tree = some P
    ∧ ∀ t sf, (_deam_one_tree O row steps t sf).oracleInvoked = false
        ∧ (_deam_one_tree O row steps t sf).brentArgs = none := by
  have htrace := deam_shortcut_trace O row steps P hmid hP hS hK hT hcall hq hlb hub
  constructor
  · obtain ⟨rest, hr⟩ := treeTry_head tree
    rw [_deamericanize_price_binomial, hr, List.findSome?_cons]
    have ha : deamAttempt O row steps (pyLower tree) = some P := by
      rw [deamAttempt, htrace (pyLower tree) (1 / 1000)]
      simp [hP]
    rw [ha]
  · intro t sf
    rw [htrace t sf]
    exact ⟨rfl, rfl⟩

/-- A concrete zero-dividend call quote. -/
def rowCall : Quote := ⟨100, 100, 1, 0, 0, some 10, ("call")⟩

/-- Witness for C4: the concrete zero-dividend call quote is returned its
own mid price with no oracle call in any attempt. -/
theorem claim_C4_witness :
    (rowCall.mid = some 10 ∧ (0 : ℚ) < 10 ∧ isCallQ rowCall = true ∧
      |rowCall.dividendYield| ≤ 1 / 10000 ∧
      noArbLB oracleA rowCall - 1 / 100000000 ≤ 10 ∧
      (10 : ℚ) ≤ noArbUB oracleA rowCall + 1 / 100000000)
    ∧ (_deamericanize_price_binomial oracleA rowCall 400 ("jr") = some 10
      ∧ ∀ t sf, (_deam_one_tree oracleA rowCall 400 t sf).oracleInvoked = false
          ∧ (_deam_one_tree oracleA rowCall 400 t sf).brentArgs = none) := by
  have hic : isCallQ rowCall = true := by decide
  have hlb : noArbLB oracleA rowCall - 1 / 100000000 ≤ 10 := by
    norm_num [noArbLB, hic, dfR, dfQ, qEff, oracleA, rowCall]
  have hub : (10 : ℚ) ≤ noArbUB oracleA rowCall + 1 / 100000000 := by
    norm_num [noArbUB, hic, dfR, dfQ, qEff, oracleA, rowCall]
  refine ⟨⟨rfl, by norm_num, hic, by norm_num [rowCall], hlb, hub⟩, ?_⟩
  exact claim_C4_zero_div_call oracleA rowCall 400 ("jr") 10 rfl (by norm_num)
    (by norm_num [rowCall]) (by norm_num [rowCall]) (by norm_num [rowCall]) hic
    (by norm_num [rowCall]) hlb hub

theorem deam_noArb_shape (O : Oracle) (row : Quote) (steps : ℕ) (tree : String) (sf : ℚ)
    (h : (_deam_one_tree O row steps tree sf).err = some DeamErr.noArb) :
    (_deam_one_tree O row steps tree sf).price = none ∧
      (_deam_one_tree O row steps tree sf).oracleInvoked = false := by
  rcases deam_trace_cases O row steps tree sf with
    hc | hc | ⟨P, _, hc⟩ | hc | hc | ⟨pr, er, args, hc, her⟩
  · rw [hc] at h; simp at h
  · rw [hc]; exact ⟨rfl, rfl⟩
  · rw [hc] at h; simp at h
  · rw [hc] at h; simp at h
  · rw [hc] at h; simp at h
  · rw [hc] at h
    rcases her with he | he | he <;> rw [he] at h <;> simp at h

theorem deam_noArb_err_iff (O : Oracle) (row : Quote) (steps : ℕ) (tree : String) (sf : ℚ)
    (P : ℚ) (hmid : row.mid = some P) (hP : 0 < P) (hS : 0 < row.spot_price)
    (hK : 0 < row.strike) (hT : 0 < row.TTM) :
    ((_deam_one_tree O row steps tree sf).err = some DeamErr.noArb ↔
      ¬(noArbLB O row - 1 / 100000000 ≤ P ∧ P ≤ noArbUB O row + 1 / 100000000)) := by
  unfold _deam_one_tree
  rw [hmid]
  dsimp only
  rw [if_neg (by simp only [not_or, not_le]; exact ⟨hT, hP, hS, hK⟩)]
  by_cases hna : ¬(noArbLB O row - 1 / 100000000 ≤ P ∧ P ≤ noArbUB O row + 1 / 100000000)
  · rw [if_pos hna]
    exact iff_of_true rfl hna
  · rw [if_neg hna]
    apply iff_of_false _ hna
    split
    · simp
    · split
      · simp
      · split
        · simp
        · split
          · simp
          · split <;> simp

/-- C5: for every valid quote (with `q ≤ 1`, so the percent correction is
the identity and `df_q = e^{-qT}` as the claim states), the no-arbitrage
filter rejects a call iff `P` lies outside
`[max(0, S·df_q − K·df_r) − 1e-8, S·df_q + 1e-8]` and a put iff `P` lies
outside `[max(0, K·df_r − S·df_q) − 1e-8, K·df_r + 1e-8]`; a rejected
quote produces no price and the pricing oracle is never invoked. -/
theorem claim_C5_no_arb_filter (O : Oracle) (row : Quote) (steps : ℕ) (tree : String)
    (sf : ℚ) (P : ℚ) (hmid : row.mid = some P) (hP : 0 < P) (hS : 0 < row.spot_price)
    (hK : 0 < row.strike) (hT : 0 < row.TTM) (hq1 : row.dividendYield ≤ 1) :
    ((_deam_one_tree O row steps tree sf).err = some DeamErr.noArb ↔
      (if isCallQ row then
        P < max 0 (row.spot_price * O.exp (-(row.dividendYield * row.TTM)) -
            row.strike * O.exp (-(row.r * row.TTM))) - 1 / 100000000 ∨
          row.spot_price * O.exp (-(row.dividendYield * row.TTM)) + 1 / 100000000 < P
       else
        P < max 0 (row.strike * O.exp (-(row.r * row.TTM)) -
            row.spot_price * O.exp (-(row.dividendYield * row.TTM))) - 1 / 100000000 ∨
          row.strike * O.exp (-(row.r * row.TTM)) + 1 / 100000000 < P))
    ∧ ((_deam_one_tree O row steps tree sf).err = some DeamErr.noArb →
        (_deam_one_tree O row steps tree sf).price = none ∧
          (_deam_one_tree O row steps tree sf).oracleInvoked = false) := by
  have hqe : qEff row.dividendYield = row.dividendYield := by
    rw [qEff, if_neg (not_lt.mpr hq1)]
  have hdq : dfQ O row = O.exp (-(row.dividendYield * row.TTM)) := by rw [dfQ, hqe]
  have hdr : dfR O row = O.exp (-(row.r * row.TTM)) := rfl
  have hbounds : (¬(noArbLB O row - 1 / 100000000 ≤ P ∧ P ≤ noArbUB O row + 1 / 100000000)) ↔
      (if isCallQ row then
        P < max 0 (row.spot_price * O.exp (-(row.dividendYield * row.TTM)) -
            row.strike * O.exp (-(row.r * row.TTM))) - 1 / 100000000 ∨
          row.spot_price * O.exp (-(row.dividendYield * row.TTM)) + 1 / 100000000 < P
       else
        P < max 0 (row.strike * O.exp (-(row.r * row.TTM)) -
            row.spot_price * O.exp (-(row.dividendYield * row.TTM))) - 1 / 100000000 ∨
          row.strike * O.exp (-(row.r * row.TTM)) + 1 / 100000000 < P) := by
    rw [not_and_or, not_le, not_le, noArbLB, noArbUB, hdq, hdr]
    by_cases hc : isCallQ row = true
    · rw [if_pos hc, if_pos hc, if_pos hc]
    · rw [if_neg hc, if_neg hc, if_neg hc]
  exact ⟨(deam_noArb_err_iff O row steps tree sf P hmid hP hS hK hT).trans hbounds,
    deam_noArb_shape O row steps tree sf⟩

/-- A concrete quote whose mid price violates the call upper bound. -/
def rowWide : Quote := ⟨100, 100, 1, 0, 0, some 200, ("call")⟩

/-- Witness for C5: a call quoted at 200 against an upper bound of
`S·df_q = 100` is rejected, yields no price, and never touches the
pricing oracle. -/
theorem claim_C5_witness :
    (rowWide.mid = some 200 ∧ rowWide.dividendYield ≤ 1)
    ∧ ((_deam_one_tree oracleA rowWide 400 ("jr") (1 / 1000)).err = some DeamErr.noArb ↔
      (if isCallQ rowWide then
        (200 : ℚ) < max 0 (rowWide.spot_price * oracleA.exp (-(rowWide.dividendYield * rowWide.TTM)) -
            rowWide.strike * oracleA.exp (-(rowWide.r * rowWide.TTM))) - 1 / 100000000 ∨
          rowWide.spot_price * oracleA.exp (-(rowWide.dividendYield * rowWide.TTM)) + 1 / 100000000 < 200
       else
        (200 : ℚ) < max 0 (rowWide.strike * oracleA.exp (-(rowWide.r * rowWide.TTM)) -
            rowWide.spot_price * oracleA.exp (-(rowWide.dividendYield * rowWide.TTM))) - 1 / 100000000 ∨
          rowWide.strike * oracleA.exp (-(rowWide.r * rowWide.TTM)) + 1 / 100000000 < 200))
    ∧ ((_deam_one_tree oracleA rowWide 400 ("jr") (1 / 1000)).err = some DeamErr.noArb →
        (_deam_one_tree oracleA rowWide 400 ("jr") (1 / 1000)).price = none ∧
          (_deam_one_tree oracleA rowWide 400 ("jr") (1 / 1000)).oracleInvoked = false)
    ∧ (_deam_one_tree oracleA rowWide 400 ("jr") (1 / 1000)).err = some DeamErr.noArb := by
  have h := claim_C5_no_arb_filter oracleA rowWide 400 ("jr") (1 / 1000) 200 rfl
    (by norm_num) (by norm_num [rowWide]) (by norm_num [rowWide]) (by norm_num [rowWide])
    (by norm_num [rowWide])
  have hic : isCallQ rowWide = true := by decide
  have herr : (_deam_one_tree oracleA rowWide 400 ("jr") (1 / 1000)).err =
      some DeamErr.noArb := by
    rw [h.1, if_pos hic]
    right
    norm_num [rowWide, oracleA]
  exact ⟨⟨rfl, by norm_num [rowWide]⟩, h.1, h.2, herr⟩

theorem ivFallback_err_ne (O : Oracle) (target : ℚ) :
    (ivFallback O target).err ≠ some IVErr.invalidInput := by
  rw [ivFallback]
  split <;> simp

theorem ivSolve_err_ne (O : Oracle) (target : ℚ) :
    (ivSolve O target).err ≠ some IVErr.invalidInput := by
  rw [ivSolve]
  split
  · split
    · simp
    · exact ivFallback_err_ne O target
  · exact ivFallback_err_ne O target

/-- C6 (amended): the Implied Volatility Extractor fails with
`InvalidInput` before any solve exactly when the mid price is absent or
`T ≤ 0`, `S ≤ 0` or `K ≤ 0`; a finite non-positive mid price is not
rejected by this guard. -/
theorem claim_C6_input_guard (O : Oracle) (row : Quote) (use_deam : Bool) :
    ((_row_bs_iv_from_price O row use_deam).err = some IVErr.invalidInput ↔
      (row.mid = none ∨ row.TTM ≤ 0 ∨ row.spot_price ≤ 0 ∨ row.strike ≤ 0))
    ∧ ((row.mid = none ∨ row.TTM ≤ 0 ∨ row.spot_price ≤ 0 ∨ row.strike ≤ 0) →
        _row_bs_iv_from_price O row use_deam = ⟨none, some IVErr.invalidInput, false⟩) := by
  unfold _row_bs_iv_from_price
  cases hm : row.mid with
  | none =>
    refine ⟨iff_of_true rfl (Or.inl rfl), fun _ => rfl⟩
  | some P =>
    dsimp only
    by_cases hg : row.TTM ≤ 0 ∨ row.spot_price ≤ 0 ∨ row.strike ≤ 0
    · rw [if_pos hg]
      exact ⟨iff_of_true rfl (Or.inr hg), fun _ => rfl⟩
    · rw [if_neg hg]
      have hrhs : ¬((some P = none) ∨ row.TTM ≤ 0 ∨ row.spot_price ≤ 0 ∨ row.strike ≤ 0) := by
        simp [hg]
      refine ⟨iff_of_false ?_ hrhs, fun h => absurd h hrhs⟩
      cases use_deam with
      | false =>
        simp only [Bool.false_eq_true, if_false]
        exact ivSolve_err_ne O P
      | true =>
        simp only [if_true]
        split
        · simp
        · split
          · simp
          · exact ivSolve_err_ne O _

/-- A quote with a finite, negative mid price and otherwise valid fields. -/
def rowNegP : Quote := ⟨1, 1, 1, 0, 0, some (-1), ("call")⟩

/-- A quote with `T = 0`. -/
def rowT0 : Quote := ⟨1, 1, 0, 0, 0, some 1, ("call")⟩

/-- An oracle whose built-in implied-volatility routine returns 2. -/
def oracleC : Oracle where
  exp := fun _ => 1
  engineInit := fun _ _ => true
  amNPV := fun _ _ _ => none
  brent := fun _ _ _ _ _ => none
  euNPV := fun _ => none
  solveIV := fun _ => some (PyFloat.fin 2)
  euAtVol := fun _ => none

/-- Counterexample to C6 as stated: a finite, strictly negative mid price
(`P = -1`, non-positive) is not rejected with `InvalidInput`; the solver
is invoked and even returns a volatility. -/
theorem claim_C6_counterexample :
    rowNegP.mid = some (-1) ∧ (-1 : ℚ) ≤ 0
    ∧ (_row_bs_iv_from_price oracleC rowNegP false).err ≠ some IVErr.invalidInput
    ∧ (_row_bs_iv_from_price oracleC rowNegP false).solveAttempted = true
    ∧ (_row_bs_iv_from_price oracleC rowNegP false).iv = some 2 := by
  have htr : _row_bs_iv_from_price oracleC rowNegP false = ⟨some 2, none, true⟩ := by
    norm_num [_row_bs_iv_from_price, rowNegP, ivSolve, oracleC]
  refine ⟨rfl, by norm_num, by rw [htr]; simp, by rw [htr], by rw [htr]⟩

/-- Witness for the amended C6: a quote with `T = 0` is rejected with
`InvalidInput` before any solve. -/
theorem claim_C6_witness :
    (((rowT0.mid = none ∨ rowT0.TTM ≤ 0 ∨ rowT0.spot_price ≤ 0 ∨ rowT0.strike ≤ 0))
      ∧ ((_row_bs_iv_from_price oracleC rowT0 true).err = some IVErr.invalidInput ↔
          (rowT0.mid = none ∨ rowT0.TTM ≤ 0 ∨ rowT0.spot_price ≤ 0 ∨ rowT0.strike ≤ 0)))
    ∧ _row_bs_iv_from_price oracleC rowT0 true = ⟨none, some IVErr.invalidInput, false⟩ := by
  have hg : rowT0.mid = none ∨ rowT0.TTM ≤ 0 ∨ rowT0.spot_price ≤ 0 ∨ rowT0.strike ≤ 0 := by
    right; left; norm_num [rowT0]
  have h := claim_C6_input_guard oracleC rowT0 true
  exact ⟨⟨hg, h.1⟩, h.2 hg⟩

theorem length_filterMap_count (g : Quote → Option HestonHelper) (p : Quote → Bool)
    (hpg : ∀ a, (g a).isSome = p a) : ∀ l : List Quote, (l.filterMap g).length = l.countP p := by
  intro l
  induction l with
  | nil => simp
  | cons a l ih =>
    rw [List.filterMap_cons, List.countP_cons]
    cases hga : g a with
    | none =>
      have hpa : p a = false := by rw [← hpg a, hga]; rfl
      simp [hpa, ih]
    | some b =>
      have hpa : p a = true := by rw [← hpg a, hga]; rfl
      simp [hpa, ih]

/-- C7: a calibration group with fewer than 5 quotes yielding a usable
implied volatility fails with `InsufficientCalibrationData` (producing no
fitted model and no per-quote result); with exactly 5 valid helpers,
calibration proceeds. -/
theorem claim_C7_min_helpers (Os : Quote → Oracle)
    (calibrate : List HestonHelper → HestonParams → HestonParams)
    (rows : List Quote) (init : Option HestonInit) (hne : rows ≠ []) :
    (_calibrate_heston Os calibrate rows init = Except.error CalErr.insufficientData ↔
      rows.countP (fun row => ((_row_bs_iv_from_price (Os row) row true).iv).isSome) < 5)
    ∧ (rows.countP (fun row => ((_row_bs_iv_from_price (Os row) row true).iv).isSome) = 5 →
        ∃ fitted helpers,
          _calibrate_heston Os calibrate rows init = Except.ok (fitted, helpers)) := by
  cases hrows : rows with
  | nil => exact absurd hrows hne
  | cons r0 rest =>
    unfold _calibrate_heston
    dsimp only
    have hcount : ((r0 :: rest).filterMap (fun row =>
        match (_row_bs_iv_from_price (Os row) row true).iv with
        | none => none
        | some iv => some (⟨tenorOf row.TTM, r0.spot_price, row.strike, iv⟩ : HestonHelper))).length =
        (r0 :: rest).countP
          (fun row => ((_row_bs_iv_from_price (Os row) row true).iv).isSome) := by
      apply length_filterMap_count
      intro a
      cases (_row_bs_iv_from_price (Os a) a true).iv <;> rfl
    by_cases hlen : ((r0 :: rest).filterMap (fun row =>
        match (_row_bs_iv_from_price (Os row) row true).iv with
        | none => none
        | some iv => some (⟨tenorOf row.TTM, r0.spot_price, row.strike, iv⟩ : HestonHelper))).length < 5
    · rw [if_pos hlen]
      constructor
      · exact iff_of_true rfl (by rw [← hcount]; exact hlen)
      · intro h5
        rw [← hcount] at h5
        omega
    · rw [if_neg hlen]
      constructor
      · refine iff_of_false (by simp) ?_
        rw [← hcount]
        omega
      · intro _
        exact ⟨_, _, rfl⟩

theorem evalC_iv : (_row_bs_iv_from_price oracleC rowCall true).iv = some 2 := by
  have hic : isCallQ rowCall = true := by decide
  have hlb : noArbLB oracleC rowCall - 1 / 100000000 ≤ 10 := by
    norm_num [noArbLB, hic, dfR, dfQ, qEff, oracleC, rowCall]
  have hub : (10 : ℚ) ≤ noArbUB oracleC rowCall + 1 / 100000000 := by
    norm_num [noArbUB, hic, dfR, dfQ, qEff, oracleC, rowCall]
  have htr := deam_shortcut_trace oracleC rowCall 400 10 rfl (by norm_num)
    (by norm_num [rowCall]) (by norm_num [rowCall]) (by norm_num [rowCall]) hic
    (by norm_num [rowCall]) hlb hub
  have hdeam : _deamericanize_price_binomial oracleC rowCall 400 ("jr") = some 10 := by
    obtain ⟨rest, hr⟩ := treeTry_head ("jr")
    rw [_deamericanize_price_binomial, hr, List.findSome?_cons]
    have ha : deamAttempt oracleC rowCall 400 (pyLower ("jr")) = some 10 := by
      rw [deamAttempt, htr (pyLower ("jr")) (1 / 1000)]
      norm_num
    rw [ha]
  unfold _row_bs_iv_from_price
  rw [show rowCall.mid = some 10 from rfl]
  dsimp only
  rw [if_neg (by norm_num [rowCall])]
  rw [if_pos rfl, hdeam]
  dsimp only
  rw [if_neg (by norm_num : ¬(10 : ℚ) ≤ 0)]
  rw [ivSolve]
  norm_num [oracleC]

/-- A five-quote calibration group built from the concrete call quote. -/
def rows5 : List Quote := [rowCall, rowCall, rowCall, rowCall, rowCall]

/-- Witness for C7: the concrete group has exactly 5 quotes with a usable
implied volatility and calibration proceeds to a fitted model. -/
theorem claim_C7_witness :
    (rows5 ≠ [] ∧ rows5.countP
        (fun row => ((_row_bs_iv_from_price ((fun _ => oracleC) row) row true).iv).isSome) = 5)
    ∧ ∃ fitted helpers,
        _calibrate_heston (fun _ => oracleC) (fun _ p => p) rows5 none =
          Except.ok (fitted, helpers) := by
  have hcount : rows5.countP
      (fun row => ((_row_bs_iv_from_price ((fun _ => oracleC) row) row true).iv).isSome) = 5 := by
    simp [rows5, List.countP_cons, evalC_iv]
  refine ⟨⟨by simp [rows5], hcount⟩, ?_⟩
  exact (claim_C7_min_helpers (fun _ => oracleC) (fun _ p => p) rows5 none
    (by simp [rows5])).2 hcount

theorem lexLe_fst_le {a b : ℚ × ℚ} (h : lexLe a b) : a.1 ≤ b.1 := by
  rcases h with h | ⟨h, _⟩
  · exact le_of_lt h
  · exact le_of_eq h

theorem sorted_head_le_lastTwo :
    ∀ (rest : List (ℚ × ℚ)) (a b : ℚ × ℚ), List.Sorted lexLe (a :: b :: rest) →
      a.1 ≤ ((lastTwo (a :: b :: rest)).2).1
  | [], a, b, h => by
    have hab : lexLe a b := List.rel_of_sorted_cons h b (List.mem_cons_self b [])
    exact lexLe_fst_le hab
  | c :: rs, a, b, h => by
    have hab : lexLe a b := List.rel_of_sorted_cons h b (by simp)
    have htail : List.Sorted lexLe (b :: c :: rs) := (List.sorted_cons.mp h).2
    have hrec := sorted_head_le_lastTwo rs b c htail
    calc a.1 ≤ b.1 := lexLe_fst_le hab
      _ ≤ _ := hrec

/-- C8: for a curve whose sorted point list has at least two points, a
query strictly below the minimum maturity returns
`y1 + ((y2 - y1)/(x2 - x1))*(t - x1)` from the first two sorted points,
a query strictly above the maximum uses the last two points analogously,
and in particular the curve {(1, 0.03), (2, 0.035)} queried at 0.5
returns exactly 0.0275 = 11/400. -/
theorem claim_C8_linear_extrapolation (mkSpline : List ℚ → List ℚ → (ℚ → ℚ))
    (pts : List (ℚ × ℚ)) (p1 p2 : ℚ × ℚ) (rest : List (ℚ × ℚ))
    (hs : sortedPoints pts = p1 :: p2 :: rest) :
    (∀ t, t < p1.1 →
      interest_rate_interpolation mkSpline pts t =
        some (p1.2 + ((p2.2 - p1.2) / (p2.1 - p1.1)) * (t - p1.1)))
    ∧ (∀ t, ((lastTwo (p1 :: p2 :: rest)).2).1 < t →
        interest_rate_interpolation mkSpline pts t =
          some ((lastTwo (p1 :: p2 :: rest)).1.2 +
            (((lastTwo (p1 :: p2 :: rest)).2.2 - (lastTwo (p1 :: p2 :: rest)).1.2) /
              ((lastTwo (p1 :: p2 :: rest)).2.1 - (lastTwo (p1 :: p2 :: rest)).1.1)) *
              (t - (lastTwo (p1 :: p2 :: rest)).1.1)))
    ∧ interest_rate_interpolation mkSpline [((1 : ℚ), (3 / 100 : ℚ)), (2, 7 / 200)] (1 / 2) =
        some (11 / 400) := by
  have hsorted : List.Sorted lexLe (p1 :: p2 :: rest) := by
    rw [← hs]
    exact List.sorted_insertionSort lexLe pts
  refine ⟨?_, ?_, ?_⟩
  · intro t ht
    unfold interest_rate_interpolation
    rw [hs]
    dsimp only
    rw [if_neg (fun hc => absurd hc.1 (not_le.mpr ht)), if_pos ht]
  · intro t ht
    unfold interest_rate_interpolation
    rw [hs]
    dsimp only
    rw [if_neg (fun hc => absurd hc.2 (not_le.mpr ht))]
    have hge : p1.1 ≤ t := le_trans (sorted_head_le_lastTwo rest p1 p2 hsorted) (le_of_lt ht)
    rw [if_neg (not_lt.mpr hge)]
  · have hsc : sortedPoints [((1 : ℚ), (3 / 100 : ℚ)), (2, 7 / 200)] =
        [((1 : ℚ), (3 / 100 : ℚ)), (2, 7 / 200)] := by
      norm_num [sortedPoints, List.insertionSort, List.orderedInsert, lexLe]
    unfold interest_rate_interpolation
    rw [hsc]
    dsimp only [lastTwo]
    rw [if_neg (by norm_num)]
    rw [if_pos (by norm_num)]
    norm_num

/-- Witness for C8 at the concrete two-point curve of the claim, queried
below range at t = 0.5. -/
theorem claim_C8_witness :
    (sortedPoints [((1 : ℚ), (3 / 100 : ℚ)), (2, 7 / 200)] =
        [((1 : ℚ), (3 / 100 : ℚ)), (2, 7 / 200)]
      ∧ (1 / 2 : ℚ) < 1)
    ∧ interest_rate_interpolation (fun _ _ => fun _ => 0)
        [((1 : ℚ), (3 / 100 : ℚ)), (2, 7 / 200)] (1 / 2) =
        some ((3 / 100 : ℚ) + ((7 / 200 - 3 / 100) / (2 - 1)) * (1 / 2 - 1)) := by
  have hsc : sortedPoints [((1 : ℚ), (3 / 100 : ℚ)), (2, 7 / 200)] =
      [((1 : ℚ), (3 / 100 : ℚ)), (2, 7 / 200)] := by
    norm_num [sortedPoints, List.insertionSort, List.orderedInsert, lexLe]
  refine ⟨⟨hsc, by norm_num⟩, ?_⟩
  exact (claim_C8_linear_extrapolation (fun _ _ => fun _ => 0)
    [((1 : ℚ), (3 / 100 : ℚ)), (2, 7 / 200)] ((1 : ℚ), (3 / 100 : ℚ)) (2, 7 / 200) [] hsc).1
    (1 / 2) (by norm_num)

/-- Counterexample to C9 as stated: on an input with two points at the
same maturity the builder keeps both (sorted by value), it does not keep
exactly one point per maturity with the last supplied value. -/
theorem claim_C9_counterexample :
    sortedPoints [((1 : ℚ), (1 / 20 : ℚ)), (1, 1 / 50)] = [(1, 1 / 50), (1, 1 / 20)]
    ∧ specSortDedupLast [((1 : ℚ), (1 / 20 : ℚ)), (1, 1 / 50)] = [(1, 1 / 50)]
    ∧ sortedPoints [((1 : ℚ), (1 / 20 : ℚ)), (1, 1 / 50)] ≠
        specSortDedupLast [((1 : ℚ), (1 / 20 : ℚ)), (1, 1 / 50)] := by
  have h1 : sortedPoints [((1 : ℚ), (1 / 20 : ℚ)), (1, 1 / 50)] =
      [(1, 1 / 50), (1, 1 / 20)] := by
    norm_num [sortedPoints, List.insertionSort, List.orderedInsert, lexLe]
  have h2 : specSortDedupLast [((1 : ℚ), (1 / 20 : ℚ)), (1, 1 / 50)] = [(1, 1 / 50)] := by
    norm_num [specSortDedupLast, List.insertionSort, List.orderedInsert, lexLe]
  refine ⟨h1, h2, ?_⟩
  rw [h1, h2]
  simp

/-- C9 (amended): before building the interpolant the Yield Curve Builder
sorts the (maturity, value) pairs — by maturity, ties broken by value —
and keeps every input point, including duplicates at the same maturity;
no de-duplication is performed. -/
theorem claim_C9_sort_keeps_duplicates (pts : List (ℚ × ℚ)) :
    (sortedPoints pts).Perm pts ∧ List.Sorted lexLe (sortedPoints pts) :=
  ⟨List.perm_insertionSort lexLe pts, List.sorted_insertionSort lexLe pts⟩
